import Mathlib

/-!
Verification of the playwright-python protocol layer specification.

The development shallowly embeds the repository's code:
the concrete helper module (`playwright_web/helper.py`) is translated
directly; the protocol-engine components (Connection, Registry,
Dispatcher, Action Engine, Interception Router) whose implementation
files are not part of the visible sources are modelled from the
specification text, as marked on each such definition.
-/

namespace PlaywrightSpec

/-- Model of the Python values that flow through the helper module:
`None`, strings, integers and booleans. -/
inductive PyVal where
  | none
  | str (s : String)
  | int (n : Int)
  | bool (b : Bool)
deriving DecidableEq

/-- Python `str()` on the modelled values (`'%s' % v` formatting). -/
def pyStr : PyVal → String
  | .none => "None"
  | .str s => s
  | .int n => toString n
  | .bool b => if b then "True" else "False"

/-- A Python dict with string keys, modelled as an insertion-ordered
association list. -/
abbrev PyDict : Type := List (String × PyVal)

/-- Lookup `d[k]`; `Option.none` models a `KeyError`. -/
def dictGet (d : PyDict) (k : String) : Option PyVal :=
  (List.find? (fun kv => kv.1 == k) d).map (fun kv => kv.2)

/-- Embedding of `helper.Error`: an exception type carrying a message
string (`helper.py` lines 59-61). -/
structure Error where
  message : String
deriving DecidableEq

/-- Model of a Python exception `ex` as seen by `serialize_error`: only
`str(ex)` is consumed, kept here as the field `excStr`. -/
structure PyException where
  excStr : String

/-- Embedding of `helper.serialize_error` (lines 63-64):
`return dict(message=str(ex))`. -/
def serialize_error (ex : PyException) : PyDict :=
  [("message", PyVal.str ex.excStr)]

/-- Embedding of `helper.parse_error` (lines 66-67):
`return Error('%s\n%s' % (error['message'], error['stack']))`.
A missing key raises `KeyError`, modelled by returning `Option.none`. -/
def parse_error (error : PyDict) : Option Error :=
  match dictGet error "message", dictGet error "stack" with
  | some m, some s => some ⟨pyStr m ++ "\n" ++ pyStr s⟩
  | _, _ => Option.none

/-- Embedding of `helper.locals_to_params` (lines 73-80): copy every
entry whose key is not `'self'` and whose value is not `None` into a
fresh dict, preserving iteration order. -/
def locals_to_params (args : PyDict) : PyDict :=
  List.filter (fun kv => kv.1 != "self" && kv.2 != PyVal.none) args

/-! ## URLMatcher (`helper.py` lines 35-49)

`URLMatcher.__init__` compiles, for a string pattern `p`, the regex
`'(?:http://|https://)' + fnmatch.translate(p)` and `matches` runs
`re.match` (anchored at the start; `fnmatch.translate` appends `\Z`, so
the whole url must be consumed).  The translation of `fnmatch.translate`
and of the compiled regex is given below at the character level. -/

/-- One atom of the regex produced by `fnmatch.translate`: a literal
character (everything `re.escape`d), `.` (from `?`), `.*` (from `*`), or
a character class (from `[...]`, a negation flag plus ranges; a single
character is the range from itself to itself). -/
inductive GlobItem where
  | lit (c : Char)
  | anyOne
  | anyMany
  | cls (negated : Bool) (ranges : List (Char × Char))
deriving DecidableEq

/-- Scan for the closing `]` of a bracket expression, returning the
characters before it and the remainder after it. -/
def scanClose : List Char → Option (List Char × List Char)
  | [] => Option.none
  | c :: rest =>
    if c = ']' then some ([], rest)
    else (scanClose rest).map (fun pr => (c :: pr.1, pr.2))

/-- Model of `fnmatch.translate`'s bracket scanning: starting right after
`[`, skip a leading `!`, then a leading `]` (which is then literal), then
scan to the closing `]`; `Option.none` means no closing bracket, in which
case `[` is treated as a literal. -/
def splitClass (cs : List Char) : Option (List Char × List Char) :=
  match cs with
  | '!' :: ']' :: rest =>
    (scanClose rest).map (fun pr => ('!' :: ']' :: pr.1, pr.2))
  | '!' :: rest =>
    (scanClose rest).map (fun pr => ('!' :: pr.1, pr.2))
  | ']' :: rest =>
    (scanClose rest).map (fun pr => (']' :: pr.1, pr.2))
  | rest => scanClose rest

/-- Interpretation of the body of a bracket expression as character
ranges, following regex class syntax: `a-b` is a range, a `-` that is
first or last stands for itself, any other character for itself. -/
def parseRanges : List Char → List (Char × Char)
  | [] => []
  | a :: '-' :: b :: rest => (a, b) :: parseRanges rest
  | a :: rest => (a, a) :: parseRanges rest

/-- Model of `fnmatch.translate` (Python stdlib, called by
`URLMatcher.__init__`): `*` becomes `.*`, `?` becomes `.`, a bracket
expression becomes a character class (negated when it starts with `!`),
an unterminated `[` is literal, every other character is escaped and so
literal.  Fuel-indexed so the recursion is structural; the initial fuel
`pat.length` always suffices because every step consumes at least one
pattern character. -/
def fnTranslateAux : Nat → List Char → List GlobItem
  | 0, _ => []
  | _, [] => []
  | fuel + 1, '*' :: rest => .anyMany :: fnTranslateAux fuel rest
  | fuel + 1, '?' :: rest => .anyOne :: fnTranslateAux fuel rest
  | fuel + 1, '[' :: rest =>
    match splitClass rest with
    | Option.none => .lit '[' :: fnTranslateAux fuel rest
    | some (stuff, rest') =>
      match stuff with
      | '!' :: body => .cls true (parseRanges body) :: fnTranslateAux fuel rest'
      | body => .cls false (parseRanges body) :: fnTranslateAux fuel rest'
  | fuel + 1, c :: rest => .lit c :: fnTranslateAux fuel rest

/-- `fnmatch.translate` on a pattern, as a list of regex atoms (the
surrounding `(?s: ... )\Z` of the Python source is reflected in the
matcher below: dot-all matching that must consume the whole input). -/
def fnTranslate (pat : List Char) : List GlobItem :=
  fnTranslateAux pat.length pat

/-- Membership of a character in a (possibly negated) character class. -/
def clsMatch (negated : Bool) (ranges : List (Char × Char)) (x : Char) : Bool :=
  let mem := ranges.any (fun r => decide (r.1 ≤ x) && decide (x ≤ r.2))
  if negated then !mem else mem

/-- Anchored matching of a list of regex atoms against a string (as a
character list): the whole input must be consumed (the `\Z` appended by
`fnmatch.translate`), `.*` may consume any suffix split (the `(?s)`
dot-all flag lets it cross any character). -/
def gmatch : List GlobItem → List Char → Bool
  | [] => fun s => s.isEmpty
  | .lit c :: r => fun s =>
    match s with
    | [] => false
    | x :: s' => x == c && gmatch r s'
  | .anyOne :: r => fun s =>
    match s with
    | [] => false
    | _ :: s' => gmatch r s'
  | .cls n rs :: r => fun s =>
    match s with
    | [] => false
    | x :: s' => clsMatch n rs x && gmatch r s'
  | .anyMany :: r => fun s => s.tails.any (fun t => gmatch r t)

/-- Matching a literal character sequence (here: one alternative of the
scheme prefix `(?:http://|https://)`) followed by translated atoms:
consume the literals one by one, then hand over to `gmatch`. -/
def matchLits : List Char → List GlobItem → List Char → Bool
  | [], items => fun s => gmatch items s
  | c :: cs, items => fun s =>
    match s with
    | [] => false
    | x :: s' => x == c && matchLits cs items s'

/-- Embedding of `URLMatcher.matches` for a string pattern: `re.match`
of `(?:http://|https://) + fnmatch.translate(p)` against the url.  The
regex engine tries the alternative `http://` and then `https://`, each
followed by the translated pattern; `re.match` anchors at the start of
the url.  The Python method returns a match object or `None`; its
truthiness is modelled as `Bool`. -/
def urlPatternMatches (p : String) (url : String) : Bool :=
  matchLits "http://".toList (fnTranslate p.toList) url.toList
  || matchLits "https://".toList (fnTranslate p.toList) url.toList

/-- The `URLMatch` argument of `URLMatcher.__init__`: a glob string
pattern or a callable predicate. -/
inductive URLMatch where
  | pat (p : String)
  | callback (f : String → Bool)

/-- Embedding of `URLMatcher.matches` (lines 46-49): a callable matcher
returns the callback's result, a string matcher runs the compiled
regex. -/
def URLMatcher.matches : URLMatch → String → Bool
  | .pat p, url => urlPatternMatches p url
  | .callback f, url => f url

/-! ## Connection: command/response correlation

Modelled from the spec: the Connection owns the Transport, assigns
unique, monotonically increasing correlation ids, stores one
PendingRequest per in-flight command, completes it from the receive loop
when the response with the matching id arrives, and completes every
outstanding PendingRequest with connection-closed on teardown.  The
implementation file of this component is not among the visible sources
(only the generated facade is), so the definitions below follow the
specification text. -/

/-- Modelled from the spec: one in-flight command of the Connection,
identified by its correlation id and the send call that produced it
(calls are numbered in issue order). -/
structure PendingRequest where
  corrId : Nat
  caller : Nat
deriving DecidableEq

/-- Modelled from the spec: Connection state — the next correlation id
to assign, the number of send calls so far, the outstanding requests,
and whether the transport is closed. -/
structure Conn where
  nextId : Nat
  sendCount : Nat
  pending : List PendingRequest
  closed : Bool
deriving DecidableEq

/-- Outcome with which a pending request is completed: success payload,
browser-reported error, or connection closed. -/
inductive CmdOutcome where
  | success
  | protocolError
  | connClosed
deriving DecidableEq

/-- A completion delivered to a send call: which call, with which
correlation id, and how it ended. -/
structure Completion where
  caller : Nat
  corrId : Nat
  outcome : CmdOutcome
deriving DecidableEq

/-- Modelled from the spec: the externally visible operations on one
Connection — a send_command call, the receive loop processing a response
carrying a correlation id, the receive loop processing an event message,
and transport closure. -/
inductive ConnOp where
  | send
  | recvResponse (corrId : Nat) (ok : Bool)
  | recvEvent
  | close

/-- Connection state together with the history of completions and the
assignment of correlation ids to send calls. -/
structure ConnState where
  conn : Conn
  comps : List Completion
  assigned : List (Nat × Nat)
deriving DecidableEq

/-- Modelled from the spec: one step of the Connection.  `send` on a
closed transport fails immediately (no PendingRequest); otherwise it
allocates the fresh correlation id and stores a PendingRequest.  A
response completes and removes the matching PendingRequest; a response
with no matching id is treated like an event and dropped.  `close`
completes every outstanding PendingRequest with connection-closed. -/
def connStep (st : ConnState) : ConnOp → ConnState
  | .send =>
    if st.conn.closed then
      { st with conn := { st.conn with sendCount := st.conn.sendCount + 1 } }
    else
      { conn := { st.conn with
          nextId := st.conn.nextId + 1
          sendCount := st.conn.sendCount + 1
          pending := st.conn.pending ++ [⟨st.conn.nextId, st.conn.sendCount⟩] }
        comps := st.comps
        assigned := st.assigned ++ [(st.conn.sendCount, st.conn.nextId)] }
  | .recvResponse i ok =>
    match st.conn.pending.find? (fun pr => pr.corrId == i) with
    | some pr =>
      { st with
        conn := { st.conn with
          pending := st.conn.pending.filter (fun q => q.corrId != i) }
        comps := st.comps ++ [⟨pr.caller, i, if ok then .success else .protocolError⟩] }
    | Option.none => st
  | .recvEvent => st
  | .close =>
    { st with
      conn := { st.conn with closed := true, pending := [] }
      comps := st.comps
        ++ st.conn.pending.map (fun pr => ⟨pr.caller, pr.corrId, .connClosed⟩) }

/-- The initial state of a fresh Connection. -/
def connInit : ConnState := ⟨⟨0, 0, [], false⟩, [], []⟩

/-- Run a sequence of Connection operations from the initial state. -/
def connRun (ops : List ConnOp) : ConnState := ops.foldl connStep connInit

/-- The Connection invariant: pending requests and completions only
carry assigned (caller, id) pairs; assigned ids and callers are below
the respective counters and duplicate-free; every assigned call has
exactly one completion-or-pending-request; a closed connection has no
pending requests. -/
structure ConnInv (st : ConnState) : Prop where
  pend_assigned : ∀ pr ∈ st.conn.pending, (pr.caller, pr.corrId) ∈ st.assigned
  comps_assigned : ∀ c ∈ st.comps, (c.caller, c.corrId) ∈ st.assigned
  ids_lt : ∀ a ∈ st.assigned, a.2 < st.conn.nextId
  callers_lt : ∀ a ∈ st.assigned, a.1 < st.conn.sendCount
  callers_nodup : (st.assigned.map Prod.fst).Nodup
  ids_nodup : (st.assigned.map Prod.snd).Nodup
  pend_nodup : st.conn.pending.Nodup
  conservation : ∀ a ∈ st.assigned,
    st.comps.countP (fun c => c.caller == a.1)
      + st.conn.pending.countP (fun pr => pr.caller == a.1) = 1
  closed_pend : st.conn.closed = true → st.conn.pending = []

/-! ## Network Interception Router

Modelled from the spec: route registrations are (matcher, handler)
pairs scoped to a page or to a browser context; on an intercepted
request the candidate list is all matching page-scoped registrations
followed by all matching context-scoped ones, each in registration
order, and the first overall match wins.  The router implementation is
not among the visible sources; the url matchers are the embedded
`URLMatcher` above. -/

/-- Terminal decision a route handler makes for a request. -/
inductive RouteAction where
  | abort
  | fulfill
  | continueRequest
deriving DecidableEq

/-- Modelled from the spec: one route registration — a url matcher
together with (the effect of) its handler. -/
structure RouteRegistration where
  matcher : URLMatch
  action : RouteAction

/-- The registrations of one scope whose matcher matches the url, in
registration order. -/
def routeMatching (regs : List RouteRegistration) (url : String) :
    List RouteRegistration :=
  regs.filter (fun r => URLMatcher.matches r.matcher url)

/-- Modelled from the spec: the ordered candidate list — matching
page-scoped registrations first, then matching context-scoped ones. -/
def routeCandidates (pageRegs ctxRegs : List RouteRegistration) (url : String) :
    List RouteRegistration :=
  routeMatching pageRegs url ++ routeMatching ctxRegs url

/-- Modelled from the spec: the registration whose handler is invoked —
the first overall match; `Option.none` means no registration matches and
the request proceeds unmodified. -/
def pickRoute (pageRegs ctxRegs : List RouteRegistration) (url : String) :
    Option RouteRegistration :=
  (routeCandidates pageRegs ctxRegs url).head?

/-! ## Dispatcher: one-shot wait_for_event subscriptions

Modelled from the spec: `wait_for_event` registers a one-shot
subscription; a matching event resolves it, disposal of the owning
channel fails it with TargetClosedError, an elapsed timeout fails it
with TimeoutError; the subscription is removed atomically with
whichever fires first, so exactly one of the three ever happens.  The
dispatcher implementation is not among the visible sources. -/

/-- Outcome of a one-shot wait: resolution with the matching payload,
TargetClosedError, or TimeoutError. -/
inductive WaitOutcome where
  | resolved (payload : Nat)
  | targetClosed
  | timedOut
deriving DecidableEq

/-- State of one `wait_for_event` future: whether its subscription is
still registered and the outcome it has been completed with. -/
structure WaitState where
  subscribed : Bool
  outcome : Option WaitOutcome
deriving DecidableEq

/-- Events affecting one waiting future, in arrival order on the single
dispatch loop: an event of the awaited name carrying a payload, disposal
of the owning channel, the timeout firing. -/
inductive WaitEv where
  | fire (payload : Nat)
  | dispose
  | timeout
deriving DecidableEq

/-- Modelled from the spec: a step of the one-shot wait.  While the
subscription is registered, an event whose payload satisfies the
predicate resolves the future, disposal closes it, timeout times it
out — each removing the subscription in the same step; once the
subscription is gone every further event is ignored. -/
def waitStep (pred : Nat → Bool) (s : WaitState) : WaitEv → WaitState
  | .fire p =>
    if s.subscribed && pred p then ⟨false, some (.resolved p)⟩ else s
  | .dispose => if s.subscribed then ⟨false, some .targetClosed⟩ else s
  | .timeout => if s.subscribed then ⟨false, some .timedOut⟩ else s

/-- A freshly registered one-shot wait. -/
def waitInit : WaitState := ⟨true, Option.none⟩

/-- Run a sequence of dispatch-loop events against a fresh wait. -/
def waitRun (pred : Nat → Bool) (evs : List WaitEv) : WaitState :=
  evs.foldl (waitStep pred) waitInit

/-- Whether an event completes a still-registered wait. -/
def completes (pred : Nat → Bool) : WaitEv → Bool
  | .fire p => pred p
  | .dispose => true
  | .timeout => true

/-- The outcome a completing event produces. -/
def evOutcome : WaitEv → WaitOutcome
  | .fire p => .resolved p
  | .dispose => .targetClosed
  | .timeout => .timedOut

/-! ## Channel Object Registry

Modelled from the spec: the registry tracks remote object identities in
a parent/child forest; `dispose(remote_id)` removes the channel and
recursively every child, marking each removed id detached; `resolve`
fails with UnknownChannelError on an unknown id and reports detached
ids.  The registry implementation is not among the visible sources. -/

mutual
/-- A channel and its transitively owned children. -/
inductive ChanTree where
  | node (id : String) (children : ChanForest)
/-- A list of sibling channel trees. -/
inductive ChanForest where
  | nil
  | cons (t : ChanTree) (ts : ChanForest)
end

/-- The remote id at the root of a channel tree. -/
def ChanTree.rootId : ChanTree → String
  | .node i _ => i

mutual
/-- All remote ids in a channel tree (the channel and its descendants). -/
def treeIds : ChanTree → List String
  | .node i cs => i :: forestIds cs
/-- All remote ids in a forest. -/
def forestIds : ChanForest → List String
  | .nil => []
  | .cons t ts => treeIds t ++ forestIds ts
end

mutual
/-- Find the subtree rooted at the channel with the given id. -/
def findTree (cid : String) : ChanTree → Option ChanTree
  | .node i cs =>
    if i = cid then some (.node i cs) else findForest cid cs
/-- Find the subtree rooted at the given id anywhere in a forest. -/
def findForest (cid : String) : ChanForest → Option ChanTree
  | .nil => Option.none
  | .cons t ts =>
    match findTree cid t with
    | some r => some r
    | Option.none => findForest cid ts
end

mutual
/-- Remove every subtree rooted at the given id below this node. -/
def pruneTree (cid : String) : ChanTree → ChanTree
  | .node i cs => .node i (pruneForest cid cs)
/-- Remove every subtree rooted at the given id from a forest. -/
def pruneForest (cid : String) : ChanForest → ChanForest
  | .nil => .nil
  | .cons t ts =>
    if t.rootId = cid then pruneForest cid ts
    else .cons (pruneTree cid t) (pruneForest cid ts)
end

/-- Modelled from the spec: the registry state — the forest of live
channels and the ids marked detached. -/
structure Registry where
  roots : ChanForest
  detached : List String

/-- How `resolve` fails: unknown id (protocol-level bug) or a disposed,
detached channel. -/
inductive ResolveErr where
  | unknownChannel
  | detachedChannel
deriving DecidableEq

/-- Modelled from the spec: `resolve(remote_id)` — a detached id is
reported as detached, an id not in the registry fails with
UnknownChannelError. -/
def Registry.resolve (reg : Registry) (cid : String) : Except ResolveErr ChanTree :=
  if cid ∈ reg.detached then .error .detachedChannel
  else
    match findForest cid reg.roots with
    | some t => .ok t
    | Option.none => .error .unknownChannel

/-- Modelled from the spec: `dispose(remote_id)` — remove the channel's
subtree (the channel and, recursively, every child) and mark each
removed id detached; disposing an unknown id is a no-op. -/
def Registry.dispose (reg : Registry) (cid : String) : Registry :=
  match findForest cid reg.roots with
  | some t => ⟨pruneForest cid reg.roots, reg.detached ++ treeIds t⟩
  | Option.none => reg

/-! ## Action Engine: actionability retry loop

Modelled from the spec: a UI action polls Resolve/Probe/Act iterations
against a timeout budget `T`; a detach between Probe and Act restarts
the cycle from Resolve, consuming the remaining budget of the same `T`;
exceeding `T` at any step fails with ActionTimeoutError carrying the
last-observed actionability state.  The action-engine implementation is
not among the visible sources. -/

/-- Modelled from the spec: the actionability snapshot computed by one
Probe — attached, visible, stable, enabled, receives-events. -/
structure ActionabilityState where
  attached : Bool
  visible : Bool
  stable : Bool
  enabled : Bool
  receivesEvents : Bool
deriving DecidableEq

/-- What the engine encounters in one iteration of the loop: the time
the iteration's Resolve+Probe steps consume, the probed snapshot, and
whether the candidate element was found detached between Probe and
Act. -/
structure Attempt where
  cost : Nat
  observed : ActionabilityState
  detachedBeforeAct : Bool
deriving DecidableEq

/-- Probe requirements of `click` (the claim's cited action, `force`
unset): attached, visible, stable, receives-events. -/
def clickProbesPass (s : ActionabilityState) : Bool :=
  s.attached && s.visible && s.stable && s.receivesEvents

/-- Result of an action invocation: success at some elapsed time,
ActionTimeoutError at some elapsed time carrying the last-observed
actionability state, or the loop still polling when the modelled
schedule ends. -/
inductive ActionResult where
  | completed (elapsed : Nat)
  | actionTimeout (elapsed : Nat) (lastState : Option ActionabilityState)
  | stillPolling (elapsed : Nat) (lastState : Option ActionabilityState)
deriving DecidableEq

/-- Modelled from the spec: the retry loop of `click` with budget `T`.
Each iteration adds its cost to the elapsed time; exceeding `T` fails
with ActionTimeoutError carrying the last-observed state; passing
probes followed by a detach between Probe and Act restarts from Resolve
with the same `T` and the already-consumed elapsed time (the budget is
never reset); failing probes polls again; otherwise the action is
performed. -/
def runClick (T : Nat) : List Attempt → Nat → Option ActionabilityState → ActionResult
  | [] => fun elapsed last => .stillPolling elapsed last
  | a :: rest => fun elapsed last =>
    if T < elapsed + a.cost then .actionTimeout (elapsed + a.cost) last
    else if clickProbesPass a.observed then
      if a.detachedBeforeAct then
        runClick T rest (elapsed + a.cost) (some a.observed)
      else .completed (elapsed + a.cost)
    else runClick T rest (elapsed + a.cost) (some a.observed)

/-- The state observed last, after consuming a list of iterations. -/
def lastObserved (last : Option ActionabilityState) :
    List Attempt → Option ActionabilityState
  | [] => last
  | a :: rest => lastObserved (some a.observed) rest

/-- Total time a list of iterations consumes. -/
def costSum (sched : List Attempt) : Nat := (sched.map Attempt.cost).sum

/-! ## Action Engine: check/uncheck short-circuit

Modelled from the spec: `check`/`uncheck` requires the attached, visible
and enabled probes, and additionally short-circuits successfully with no
DOM mutation when the element's checked state already matches the
target state. -/

/-- The element state consulted by `check`/`uncheck`. -/
structure CheckElem where
  attached : Bool
  visible : Bool
  enabled : Bool
  checked : Bool
deriving DecidableEq

/-- Result of a check/uncheck invocation: completed, leaving the element
in the given state, or still waiting for probes to pass. -/
inductive CheckResult where
  | done (afterState : CheckElem)
  | waitingOnProbes
deriving DecidableEq

/-- Modelled from the spec: `check` (target `true`) and `uncheck`
(target `false`): if the checked state already matches the target the
action returns successfully without mutating anything; otherwise it
acts (flipping the checked state) only once the attached, visible and
enabled probes pass. -/
def checkAction (target : Bool) (e : CheckElem) : CheckResult :=
  if e.checked = target then .done e
  else if e.attached && e.visible && e.enabled then
    .done { e with checked := target }
  else .waitingOnProbes

/-! ## Theorems about the helper module -/

theorem matchLits_iff (cs : List Char) (items : List GlobItem) (s : List Char) :
    matchLits cs items s = true ↔
      (cs <+: s ∧ gmatch items (s.drop cs.length) = true) := by
  induction cs generalizing s with
  | nil => simp [matchLits]
  | cons c cs ih =>
    cases s with
    | nil => simp [matchLits]
    | cons x s' =>
      simp only [matchLits, Bool.and_eq_true, beq_iff_eq, ih, List.cons_prefix_cons,
        List.length_cons, List.drop_succ_cons]
      constructor
      · rintro ⟨rfl, h1, h2⟩
        exact ⟨⟨rfl, h1⟩, h2⟩
      · rintro ⟨⟨rfl, h1⟩, h2⟩
        exact ⟨rfl, h1, h2⟩

/-- C7.  ProtocolError passthrough: for every payload carrying message
`m` and stack `s`, `parse_error` builds an `Error` whose message is
exactly `m`, a newline, then `s`; the character-level decomposition
shows neither string is altered or truncated. -/
theorem parse_error_passthrough (payload : PyDict) (m s : String)
    (hm : dictGet payload "message" = some (PyVal.str m))
    (hs : dictGet payload "stack" = some (PyVal.str s)) :
    parse_error payload = some ⟨m ++ "\n" ++ s⟩
    ∧ (m ++ "\n" ++ s).data = m.data ++ '\n' :: s.data := by
  constructor
  · simp [parse_error, hm, hs, pyStr]
  · simp [String.data_append]

/-- Witness for C7 at a concrete payload. -/
theorem parse_error_passthrough_witness :
    parse_error [("message", PyVal.str "boom"), ("stack", PyVal.str "trace")]
      = some ⟨"boom" ++ "\n" ++ "trace"⟩ :=
  (parse_error_passthrough
    [("message", PyVal.str "boom"), ("stack", PyVal.str "trace")]
    "boom" "trace" (by decide) (by decide)).1

/-- C9.  `locals_to_params` returns a fresh dict holding exactly the
entries of `args` whose key is not `'self'` and whose value is not
`None`, each with its original value; being a sublist, it preserves
order and values (the embedding is pure, so the input is unmodified by
construction). -/
theorem locals_to_params_spec (args : PyDict) :
    (∀ k v, (k, v) ∈ locals_to_params args ↔
      ((k, v) ∈ args ∧ k ≠ "self" ∧ v ≠ PyVal.none))
    ∧ List.Sublist (locals_to_params args) args := by
  refine ⟨fun k v => ?_, List.filter_sublist _⟩
  simp [locals_to_params, List.mem_filter, and_assoc]

/-- Witness for C9 at a concrete dict. -/
theorem locals_to_params_spec_witness :
    ("b", PyVal.str "x") ∈
      locals_to_params [("self", PyVal.int 1), ("a", PyVal.none), ("b", PyVal.str "x")] :=
  ((locals_to_params_spec
      [("self", PyVal.int 1), ("a", PyVal.none), ("b", PyVal.str "x")]).1
    "b" (PyVal.str "x")).mpr ⟨by decide, by decide, by decide⟩

/-- C10.  `serialize_error` and `parse_error` are not a round trip:
`serialize_error ex` is the one-entry dict mapping `'message'` to
`str(ex)` — it has no `'stack'`, `'name'` or `'value'` key — while
`parse_error` needs both `'message'` and `'stack'`, so it is undefined
(raises `KeyError`, modelled as `Option.none`) on `serialize_error`'s
output. -/
theorem serialize_error_not_parseable (ex : PyException) :
    serialize_error ex = [("message", PyVal.str ex.excStr)]
    ∧ dictGet (serialize_error ex) "stack" = Option.none
    ∧ dictGet (serialize_error ex) "name" = Option.none
    ∧ dictGet (serialize_error ex) "value" = Option.none
    ∧ parse_error (serialize_error ex) = Option.none
    ∧ (∀ payload r, parse_error payload = some r →
        (dictGet payload "message").isSome ∧ (dictGet payload "stack").isSome) := by
  refine ⟨rfl, rfl, rfl, rfl, rfl, ?_⟩
  intro payload r h
  cases hm : dictGet payload "message" <;> cases hs : dictGet payload "stack" <;>
    simp [parse_error, hm, hs] at h ⊢

/-- Witness for C10 at a concrete payload. -/
theorem serialize_error_not_parseable_witness :
    (dictGet [("message", PyVal.str "m"), ("stack", PyVal.str "s")] "message").isSome
    ∧ (dictGet [("message", PyVal.str "m"), ("stack", PyVal.str "s")] "stack").isSome :=
  (serialize_error_not_parseable ⟨"m"⟩).2.2.2.2.2
    [("message", PyVal.str "m"), ("stack", PyVal.str "s")] ⟨"m" ++ "\n" ++ "s"⟩ (by decide)

/-- C8 counterexample: the claim asserts that a string pattern beginning
with a scheme matches no URL at all, yet the compiled regex prefixes a
further scheme alternation before the translated pattern, so the pattern
`http://example.com/*` does match the url `http://http://example.com/x`. -/
theorem urlmatcher_scheme_pattern_matches_doubled :
    URLMatcher.matches (.pat "http://example.com/*") "http://http://example.com/x" = true := by
  decide

/-- C8 (amended).  `URLMatcher` string-pattern semantics: a string
pattern `p` matches `u` iff `u` starts with `http://` or `https://` and
the remainder matches `fnmatch.translate p` anchored there; a url with
any other scheme never matches a string pattern; a pattern that itself
begins with a scheme matches a url only when the url repeats the scheme
(`http://example.com/*` rejects `http://example.com/x` but accepts
`http://http://example.com/x`); a callable matcher returns exactly the
callback's result. -/
theorem urlmatcher_string_semantics (p u : String) (f : String → Bool) :
    (URLMatcher.matches (.pat p) u = true ↔
      (("http://".toList <+: u.toList
          ∧ gmatch (fnTranslate p.toList) (u.toList.drop 7) = true)
        ∨ ("https://".toList <+: u.toList
          ∧ gmatch (fnTranslate p.toList) (u.toList.drop 8) = true)))
    ∧ (¬ ("http://".toList <+: u.toList) → ¬ ("https://".toList <+: u.toList) →
        URLMatcher.matches (.pat p) u = false)
    ∧ URLMatcher.matches (.callback f) u = f u
    ∧ URLMatcher.matches (.pat "http://example.com/*") "http://example.com/x" = false
    ∧ URLMatcher.matches (.pat "http://example.com/*") "http://http://example.com/x" = true := by
  have hiff : URLMatcher.matches (.pat p) u = true ↔
      (("http://".toList <+: u.toList
          ∧ gmatch (fnTranslate p.toList) (u.toList.drop 7) = true)
        ∨ ("https://".toList <+: u.toList
          ∧ gmatch (fnTranslate p.toList) (u.toList.drop 8) = true)) := by
    simp only [URLMatcher.matches, urlPatternMatches, Bool.or_eq_true, matchLits_iff]
    rfl
  refine ⟨hiff, ?_, rfl, by decide, by decide⟩
  intro h1 h2
  cases hb : URLMatcher.matches (.pat p) u with
  | false => rfl
  | true =>
    rcases hiff.mp hb with ⟨hp, _⟩ | ⟨hp, _⟩
    · exact absurd hp h1
    · exact absurd hp h2

/-- Witness for C8 at a concrete non-http url. -/
theorem urlmatcher_string_semantics_witness :
    URLMatcher.matches (.pat "*.png") "ftp://a/x.png" = false :=
  (urlmatcher_string_semantics "*.png" "ftp://a/x.png" (fun _ => true)).2.1
    (by decide) (by decide)

/-! ## Theorems about check/uncheck -/

/-- C6.  check/uncheck short-circuit: when the element's checked state
already equals the target, the action returns successfully with the
element (and hence the page) unchanged; otherwise it completes exactly
when the attached, visible and enabled probes pass, and waits on the
probes otherwise. -/
theorem check_uncheck_short_circuit (target : Bool) (e : CheckElem) :
    (e.checked = target → checkAction target e = .done e)
    ∧ (e.checked ≠ target →
        (checkAction target e = .done { e with checked := target } ↔
          (e.attached = true ∧ e.visible = true ∧ e.enabled = true)))
    ∧ (e.checked ≠ target →
        ¬(e.attached = true ∧ e.visible = true ∧ e.enabled = true) →
        checkAction target e = .waitingOnProbes) := by
  refine ⟨fun h => by simp [checkAction, h], fun h => ?_, fun h hp => ?_⟩
  · by_cases hp : (e.attached && e.visible && e.enabled) = true
    · simp only [checkAction, if_neg h, if_pos hp]
      simp only [Bool.and_eq_true] at hp
      simp [hp.1.1, hp.1.2, hp.2]
    · simp only [checkAction, if_neg h, if_neg hp]
      constructor
      · intro hfalse; simp at hfalse
      · rintro ⟨h1, h2, h3⟩
        rw [h1, h2, h3] at hp
        simp at hp
  · have hp' : ¬((e.attached && e.visible && e.enabled) = true) := by
      intro hb
      simp only [Bool.and_eq_true] at hb
      exact hp ⟨hb.1.1, hb.1.2, hb.2⟩
    simp only [checkAction, if_neg h, if_neg hp']

/-- Witness for C6: an element already in the target state
short-circuits even though it would fail every probe. -/
theorem check_uncheck_short_circuit_witness :
    checkAction true ⟨false, false, false, true⟩
      = .done ⟨false, false, false, true⟩ :=
  (check_uncheck_short_circuit true ⟨false, false, false, true⟩).1 rfl

/-! ## Theorems about the interception router -/

/-- C2.  Route priority: the chosen registration is the first match in
page-then-context registration order; whenever some page-scoped
registration matches, the chosen one is a matching page-scoped one even
if context-scoped registrations also match; on the spec's example the
page-scoped `*.png` abort beats the context-scoped `*` continue for
`http://a/x.png`. -/
theorem route_priority (pageRegs ctxRegs : List RouteRegistration) (url : String) :
    (pickRoute pageRegs ctxRegs url =
      ((pageRegs ++ ctxRegs).filter
        (fun r => URLMatcher.matches r.matcher url)).head?)
    ∧ (∀ A ∈ pageRegs, URLMatcher.matches A.matcher url = true →
        ∃ r, pickRoute pageRegs ctxRegs url = some r
          ∧ r ∈ routeMatching pageRegs url
          ∧ URLMatcher.matches r.matcher url = true)
    ∧ (pickRoute [⟨.pat "*.png", .abort⟩] [⟨.pat "*", .continueRequest⟩]
        "http://a/x.png" = some ⟨.pat "*.png", .abort⟩) := by
  refine ⟨?_, ?_, ?_⟩
  · simp [pickRoute, routeCandidates, routeMatching, List.filter_append]
  · intro A hA hmatch
    have hmem : A ∈ routeMatching pageRegs url :=
      List.mem_filter.mpr ⟨hA, hmatch⟩
    cases hm : routeMatching pageRegs url with
    | nil => rw [hm] at hmem; cases hmem
    | cons r rs =>
      have hrmem : r ∈ routeMatching pageRegs url := by
        rw [hm]; exact List.mem_cons_self r rs
      have hrmatch : URLMatcher.matches r.matcher url = true := by
        simp only [routeMatching] at hrmem
        exact (List.mem_filter.mp hrmem).2
      refine ⟨r, ?_, List.mem_cons_self r rs, hrmatch⟩
      simp [pickRoute, routeCandidates, hm]
  · rfl

/-- Witness for C2 at the spec's concrete example. -/
theorem route_priority_witness :
    ∃ r, pickRoute [⟨.pat "*.png", .abort⟩] [⟨.pat "*", .continueRequest⟩]
        "http://a/x.png" = some r
      ∧ r ∈ routeMatching [⟨.pat "*.png", .abort⟩] "http://a/x.png"
      ∧ URLMatcher.matches r.matcher "http://a/x.png" = true :=
  (route_priority [⟨.pat "*.png", .abort⟩] [⟨.pat "*", .continueRequest⟩]
    "http://a/x.png").2.1 ⟨.pat "*.png", .abort⟩ (List.mem_cons_self _ _) (by decide)

/-! ## Theorems about one-shot wait_for_event -/

theorem waitRun_frozen (pred : Nat → Bool) (s : WaitState)
    (hs : s.subscribed = false) (evs : List WaitEv) :
    evs.foldl (waitStep pred) s = s := by
  induction evs with
  | nil => rfl
  | cons e evs ih =>
    have hstep : waitStep pred s e = s := by
      cases e <;> simp [waitStep, hs]
    rw [List.foldl_cons, hstep, ih]

theorem waitRun_eq (pred : Nat → Bool) (evs : List WaitEv) :
    waitRun pred evs =
      (match (evs.filter (completes pred)).head? with
        | some e => ⟨false, some (evOutcome e)⟩
        | Option.none => waitInit) := by
  induction evs with
  | nil => rfl
  | cons e evs ih =>
    by_cases hc : completes pred e = true
    · have hstep : waitStep pred waitInit e = ⟨false, some (evOutcome e)⟩ := by
        cases e <;> simp_all [waitStep, waitInit, completes, evOutcome]
      have hfroz : waitRun pred (e :: evs) = ⟨false, some (evOutcome e)⟩ := by
        rw [waitRun, List.foldl_cons, hstep]
        exact waitRun_frozen pred _ rfl evs
      rw [hfroz, List.filter_cons, hc]
      simp
    · have hcf : completes pred e = false := by
        revert hc; cases completes pred e <;> simp
      have he : waitStep pred waitInit e = waitInit := by
        cases e <;> simp_all [waitStep, waitInit, completes]
      rw [waitRun, List.foldl_cons, he, List.filter_cons, hcf]
      simp only [Bool.false_eq_true, if_false]
      exact ih

/-- C3.  One-shot exclusivity of wait_for_event: the future's outcome is
exactly that of the first completing event (matching event, channel
disposal, or timeout) — so it is completed at most once with exactly one
of the three; the subscription is removed atomically with completion;
once completed, the outcome never changes under further events (it never
fires twice); a resolution's payload always satisfies the predicate. -/
theorem wait_for_event_one_shot (pred : Nat → Bool) (evs : List WaitEv) :
    ((waitRun pred evs).outcome =
      ((evs.filter (completes pred)).head?).map evOutcome)
    ∧ ((waitRun pred evs).subscribed = true ↔
        (waitRun pred evs).outcome = Option.none)
    ∧ (∀ o more, (waitRun pred evs).outcome = some o →
        (waitRun pred (evs ++ more)).outcome = some o)
    ∧ (∀ p, (waitRun pred evs).outcome = some (.resolved p) → pred p = true) := by
  have hrun := waitRun_eq pred evs
  refine ⟨?_, ?_, ?_, ?_⟩
  · rw [hrun]; cases (evs.filter (completes pred)).head? <;> simp [waitInit]
  · rw [hrun]; cases (evs.filter (completes pred)).head? <;> simp [waitInit]
  · intro o more ho
    have hsub : (waitRun pred evs).subscribed = false := by
      rw [hrun] at ho ⊢
      cases hh : (evs.filter (completes pred)).head? with
      | none => rw [hh] at ho; simp [waitInit] at ho
      | some e => simp
    have happ : waitRun pred (evs ++ more)
        = more.foldl (waitStep pred) (waitRun pred evs) := by
      rw [waitRun, waitRun, List.foldl_append]
    rw [happ, waitRun_frozen pred _ hsub more]
    exact ho
  · intro p ho
    rw [hrun] at ho
    cases hh : (evs.filter (completes pred)).head? with
    | none => rw [hh] at ho; simp [waitInit] at ho
    | some e =>
      rw [hh] at ho
      have hmem : e ∈ evs.filter (completes pred) :=
        List.mem_of_mem_head? (by rw [hh]; rfl)
      have hcomp : completes pred e = true := (List.mem_filter.mp hmem).2
      cases e with
      | fire q =>
        simp only [evOutcome] at ho
        have hqp : q = p := by simpa using ho
        have hq : pred q = true := by simpa [completes] using hcomp
        rw [← hqp]; exact hq
      | dispose => simp [evOutcome] at ho
      | timeout => simp [evOutcome] at ho

/-- Witness for C3: a second matching event does not refire the
future. -/
theorem wait_for_event_one_shot_witness :
    (waitRun (fun p => p == 5) ([.fire 5] ++ [.fire 5])).outcome
      = some (.resolved 5) :=
  (wait_for_event_one_shot (fun p => p == 5) [.fire 5]).2.2.1
    (.resolved 5) [.fire 5] rfl

/-! ## Theorems about the action retry loop -/

theorem costSum_nil : costSum [] = 0 := rfl

theorem costSum_cons (a : Attempt) (l : List Attempt) :
    costSum (a :: l) = a.cost + costSum l := by
  simp [costSum]

theorem runClick_completed_le (T : Nat) (sched : List Attempt) :
    ∀ elapsed last e, runClick T sched elapsed last = .completed e →
      elapsed ≤ e ∧ e ≤ T := by
  induction sched with
  | nil => intro elapsed last e h; simp [runClick] at h
  | cons a rest ih =>
    intro elapsed last e h
    simp only [runClick] at h
    split at h
    · simp at h
    · split at h
      · split at h
        · have := ih _ _ _ h
          omega
        · injection h with he
          omega
      · have := ih _ _ _ h
        omega

theorem runClick_timeout_inv (T : Nat) (sched : List Attempt) :
    ∀ elapsed last e ls, runClick T sched elapsed last = .actionTimeout e ls →
      T < e ∧ ∃ pre a post, sched = pre ++ a :: post
        ∧ e = elapsed + costSum pre + a.cost
        ∧ ls = lastObserved last pre
        ∧ ∀ b ∈ pre,
            ¬(clickProbesPass b.observed = true ∧ b.detachedBeforeAct = false) := by
  induction sched with
  | nil => intro elapsed last e ls h; simp [runClick] at h
  | cons a rest ih =>
    intro elapsed last e ls h
    simp only [runClick] at h
    split at h
    case isTrue h1 =>
      injection h with he hl
      refine ⟨by omega, [], a, rest, rfl, ?_, ?_, by simp⟩
      · rw [costSum_nil]; omega
      · rw [← hl]; rfl
    case isFalse h1 =>
      split at h
      case isTrue hprobe =>
        split at h
        case isTrue hdet =>
          obtain ⟨hT, pre, a', post, hsched, he, hls, hall⟩ := ih _ _ _ _ h
          refine ⟨hT, a :: pre, a', post, by rw [hsched, List.cons_append], ?_, ?_, ?_⟩
          · rw [costSum_cons] at *; omega
          · rw [hls]; rfl
          · intro b hb
            rcases List.mem_cons.mp hb with rfl | hb'
            · rintro ⟨_, hbd⟩; rw [hdet] at hbd; cases hbd
            · exact hall b hb'
        case isFalse hdet => simp at h
      case isFalse hprobe =>
        obtain ⟨hT, pre, a', post, hsched, he, hls, hall⟩ := ih _ _ _ _ h
        refine ⟨hT, a :: pre, a', post, by rw [hsched, List.cons_append], ?_, ?_, ?_⟩
        · rw [costSum_cons] at *; omega
        · rw [hls]; rfl
        · intro b hb
          rcases List.mem_cons.mp hb with rfl | hb'
          · rintro ⟨hbp, _⟩; exact hprobe hbp
          · exact hall b hb'

/-- C5.  Action timeout monotonicity: a detach between Probe and Act
restarts the cycle from Resolve under the same budget `T` with the
already-consumed elapsed time (the timeout is never reset); an action
can only complete within the budget; a timeout happens exactly when the
accumulated Resolve+Probe+retry time first exceeds `T`, and the
resulting ActionTimeoutError carries the last-observed actionability
state, with no successful Act in the consumed prefix. -/
theorem click_timeout_monotonic (T : Nat) :
    (∀ (a : Attempt) rest elapsed last, elapsed + a.cost ≤ T →
      clickProbesPass a.observed = true → a.detachedBeforeAct = true →
      runClick T (a :: rest) elapsed last
        = runClick T rest (elapsed + a.cost) (some a.observed))
    ∧ (∀ sched elapsed last e, runClick T sched elapsed last = .completed e →
        elapsed ≤ e ∧ e ≤ T)
    ∧ (∀ sched elapsed last e ls,
        runClick T sched elapsed last = .actionTimeout e ls →
        T < e ∧ ∃ pre a post, sched = pre ++ a :: post
          ∧ e = elapsed + costSum pre + a.cost
          ∧ ls = lastObserved last pre
          ∧ ∀ b ∈ pre,
              ¬(clickProbesPass b.observed = true ∧ b.detachedBeforeAct = false)) := by
  refine ⟨?_, fun sched => runClick_completed_le T sched,
    fun sched => runClick_timeout_inv T sched⟩
  intro a rest elapsed last hbudget hprobe hdet
  simp only [runClick, if_neg (by omega : ¬T < elapsed + a.cost), hprobe, hdet]
  simp

/-- Witness for C5: with budget 10, a passing probe followed by a detach
consumes 6 of the budget and restarts from Resolve with the same
budget. -/
theorem click_timeout_monotonic_witness :
    runClick 10 [⟨6, ⟨true, true, true, true, true⟩, true⟩,
        ⟨6, ⟨true, true, true, true, true⟩, false⟩] 0 Option.none
      = runClick 10 [⟨6, ⟨true, true, true, true, true⟩, false⟩] 6
          (some ⟨true, true, true, true, true⟩) :=
  (click_timeout_monotonic 10).1 ⟨6, ⟨true, true, true, true, true⟩, true⟩
    [⟨6, ⟨true, true, true, true, true⟩, false⟩] 0 Option.none
    (by decide) (by decide) rfl

/-! ## Theorems about the channel registry -/

mutual
theorem findTree_sub (c d : String) : ∀ (t u : ChanTree),
    findTree c t = some u → d ∈ treeIds u → d ∈ treeIds t
  | .node i cs, u, hf, hd => by
    simp only [findTree] at hf
    split at hf
    · injection hf with h
      rw [← h] at hd
      exact hd
    · simp only [treeIds, List.mem_cons]
      exact Or.inr (findForest_sub c d cs u hf hd)
theorem findForest_sub (c d : String) : ∀ (f : ChanForest) (u : ChanTree),
    findForest c f = some u → d ∈ treeIds u → d ∈ forestIds f
  | .nil, u, hf, _ => by simp [findForest] at hf
  | .cons t ts, u, hf, hd => by
    simp only [findForest] at hf
    simp only [forestIds, List.mem_append]
    cases ht : findTree c t with
    | some r =>
      rw [ht] at hf
      injection hf with h
      rw [h] at ht
      exact Or.inl (findTree_sub c d t u ht hd)
    | none =>
      rw [ht] at hf
      exact Or.inr (findForest_sub c d ts u hf hd)
end

mutual
theorem pruneTree_sub (c d : String) : ∀ (t : ChanTree),
    d ∈ treeIds (pruneTree c t) → d ∈ treeIds t
  | .node i cs, hd => by
    simp only [pruneTree, treeIds, List.mem_cons] at hd ⊢
    rcases hd with rfl | hd'
    · exact Or.inl rfl
    · exact Or.inr (pruneForest_sub c d cs hd')
theorem pruneForest_sub (c d : String) : ∀ (f : ChanForest),
    d ∈ forestIds (pruneForest c f) → d ∈ forestIds f
  | .nil, hd => by simp [pruneForest] at hd; cases hd
  | .cons t ts, hd => by
    simp only [pruneForest] at hd
    simp only [forestIds, List.mem_append]
    split at hd
    · exact Or.inr (pruneForest_sub c d ts hd)
    · simp only [forestIds, List.mem_append] at hd
      rcases hd with hd' | hd'
      · exact Or.inl (pruneTree_sub c d t hd')
      · exact Or.inr (pruneForest_sub c d ts hd')
end

mutual
theorem pruneTree_removes (c d : String) : ∀ (t u : ChanTree),
    t.rootId ≠ c → (treeIds t).Nodup → findTree c t = some u →
    d ∈ treeIds u → d ∉ treeIds (pruneTree c t)
  | .node i cs, u, hroot, hnd, hf, hd => by
    simp only [ChanTree.rootId] at hroot
    simp only [findTree, if_neg hroot] at hf
    simp only [treeIds, List.nodup_cons] at hnd
    simp only [pruneTree, treeIds, List.mem_cons]
    rintro (rfl | hmem)
    · exact hnd.1 (findForest_sub c d cs u hf hd)
    · exact pruneForest_removes c d cs u hnd.2 hf hd hmem
theorem pruneForest_removes (c d : String) : ∀ (f : ChanForest) (u : ChanTree),
    (forestIds f).Nodup → findForest c f = some u →
    d ∈ treeIds u → d ∉ forestIds (pruneForest c f)
  | .nil, u, _, hf, _ => by simp [findForest] at hf
  | .cons t ts, u, hnd, hf, hd => by
    simp only [forestIds, List.nodup_append] at hnd
    obtain ⟨hnd1, hnd2, hdisj⟩ := hnd
    simp only [findForest] at hf
    simp only [pruneForest]
    cases ht : findTree c t with
    | some r =>
      rw [ht] at hf
      injection hf with h
      rw [h] at ht
      have hdu : d ∈ treeIds t := findTree_sub c d t u ht hd
      by_cases hrt : t.rootId = c
      · rw [if_pos hrt]
        intro hmem
        exact hdisj hdu (pruneForest_sub c d ts hmem)
      · rw [if_neg hrt]
        simp only [forestIds, List.mem_append]
        rintro (hmem | hmem)
        · exact pruneTree_removes c d t u hrt hnd1 ht hd hmem
        · exact hdisj hdu (pruneForest_sub c d ts hmem)
    | none =>
      rw [ht] at hf
      have hrt : t.rootId ≠ c := by
        intro hrt
        cases t with
        | node i cs =>
          simp only [ChanTree.rootId] at hrt
          simp [findTree, hrt] at ht
      rw [if_neg hrt]
      have hdts : d ∈ forestIds ts := findForest_sub c d ts u hf hd
      simp only [forestIds, List.mem_append]
      rintro (hmem | hmem)
      · exact hdisj (pruneTree_sub c d t hmem) hdts
      · exact pruneForest_removes c d ts u hnd2 hf hd hmem
end

theorem rootId_mem_treeIds : ∀ (t : ChanTree), t.rootId ∈ treeIds t
  | .node i _ => by simp [ChanTree.rootId, treeIds]

mutual
theorem findTree_root (c : String) : ∀ (t u : ChanTree),
    findTree c t = some u → u.rootId = c
  | .node i cs, u, hf => by
    simp only [findTree] at hf
    split at hf
    case isTrue hic =>
      injection hf with h
      rw [← h, ChanTree.rootId]
      exact hic
    case isFalse hic => exact findForest_root c cs u hf
theorem findForest_root (c : String) : ∀ (f : ChanForest) (u : ChanTree),
    findForest c f = some u → u.rootId = c
  | .nil, u, hf => by simp [findForest] at hf
  | .cons t ts, u, hf => by
    simp only [findForest] at hf
    cases ht : findTree c t with
    | some r =>
      rw [ht] at hf
      injection hf with h
      rw [h] at ht
      exact findTree_root c t u ht
    | none =>
      rw [ht] at hf
      exact findForest_root c ts u hf
end

/-- C4.  Cascade disposal: disposing a channel removes it and every
descendant (its whole subtree) and marks each of them detached; every
such id is afterwards absent from the registry forest and `resolve` on
it fails, reporting the channel detached. -/
theorem cascade_disposal (reg : Registry) (c d : String) (t : ChanTree)
    (hwf : (forestIds reg.roots).Nodup)
    (hfind : findForest c reg.roots = some t)
    (hd : d ∈ treeIds t) :
    d ∈ (reg.dispose c).detached
    ∧ findForest d (reg.dispose c).roots = Option.none
    ∧ (reg.dispose c).resolve d = .error .detachedChannel := by
  have hdisp : reg.dispose c
      = ⟨pruneForest c reg.roots, reg.detached ++ treeIds t⟩ := by
    simp [Registry.dispose, hfind]
  have hdet : d ∈ (reg.dispose c).detached := by
    rw [hdisp]
    exact List.mem_append_right _ hd
  have hgone : d ∉ forestIds (pruneForest c reg.roots) :=
    pruneForest_removes c d reg.roots t hwf hfind hd
  have hnone : findForest d (reg.dispose c).roots = Option.none := by
    rw [hdisp]
    cases hff : findForest d (pruneForest c reg.roots) with
    | none => rfl
    | some u =>
      exfalso
      apply hgone
      have hroot : u.rootId = d := findForest_root d _ u hff
      have hdu : d ∈ treeIds u := by
        rw [← hroot]; exact rootId_mem_treeIds u
      exact findForest_sub d d _ u hff hdu
  refine ⟨hdet, hnone, ?_⟩
  rw [Registry.resolve, if_pos hdet]

/-- Witness for C4: disposing `page1` in the registry
`root → page1 → frame1` makes the grandchild `frame1` detached and
unresolvable. -/
theorem cascade_disposal_witness :
    "frame1" ∈ ((Registry.mk
        (ChanForest.cons (ChanTree.node "root" (ChanForest.cons
          (ChanTree.node "page1" (ChanForest.cons
            (ChanTree.node "frame1" ChanForest.nil) ChanForest.nil))
          ChanForest.nil)) ChanForest.nil) []).dispose "page1").detached
    ∧ findForest "frame1" ((Registry.mk
        (ChanForest.cons (ChanTree.node "root" (ChanForest.cons
          (ChanTree.node "page1" (ChanForest.cons
            (ChanTree.node "frame1" ChanForest.nil) ChanForest.nil))
          ChanForest.nil)) ChanForest.nil) []).dispose "page1").roots
        = Option.none
    ∧ ((Registry.mk
        (ChanForest.cons (ChanTree.node "root" (ChanForest.cons
          (ChanTree.node "page1" (ChanForest.cons
            (ChanTree.node "frame1" ChanForest.nil) ChanForest.nil))
          ChanForest.nil)) ChanForest.nil) []).dispose "page1").resolve "frame1"
        = .error .detachedChannel :=
  cascade_disposal
    (Registry.mk
      (ChanForest.cons (ChanTree.node "root" (ChanForest.cons
        (ChanTree.node "page1" (ChanForest.cons
          (ChanTree.node "frame1" ChanForest.nil) ChanForest.nil))
        ChanForest.nil)) ChanForest.nil) [])
    "page1" "frame1"
    (ChanTree.node "page1" (ChanForest.cons
      (ChanTree.node "frame1" ChanForest.nil) ChanForest.nil))
    (by decide) rfl (by decide)

/-! ## Theorems about the Connection -/

theorem length_le_one_eq {α : Type} : ∀ {l : List α}, l.length ≤ 1 →
    ∀ x ∈ l, ∀ y ∈ l, x = y
  | [], _, x, hx, _, _ => absurd hx (List.not_mem_nil x)
  | [z], _, x, hx, y, hy => by
    rw [List.mem_singleton] at hx hy
    rw [hx, hy]
  | a :: b :: t, h, _, _, _, _ => by simp [List.length_cons] at h

theorem connInv_send (st : ConnState) (inv : ConnInv st) :
    ConnInv (connStep st .send) := by
  by_cases hc : st.conn.closed = true
  · simp only [connStep, if_pos hc]
    exact {
      pend_assigned := inv.pend_assigned
      comps_assigned := inv.comps_assigned
      ids_lt := inv.ids_lt
      callers_lt := fun a ha => Nat.lt_succ_of_lt (inv.callers_lt a ha)
      callers_nodup := inv.callers_nodup
      ids_nodup := inv.ids_nodup
      pend_nodup := inv.pend_nodup
      conservation := inv.conservation
      closed_pend := inv.closed_pend }
  · simp only [connStep, if_neg hc]
    have hcallers : ∀ a ∈ st.assigned, a.1 ≠ st.conn.sendCount :=
      fun a ha => Nat.ne_of_lt (inv.callers_lt a ha)
    have hids : ∀ a ∈ st.assigned, a.2 ≠ st.conn.nextId :=
      fun a ha => Nat.ne_of_lt (inv.ids_lt a ha)
    refine {
      pend_assigned := ?_
      comps_assigned := ?_
      ids_lt := ?_
      callers_lt := ?_
      callers_nodup := ?_
      ids_nodup := ?_
      pend_nodup := ?_
      conservation := ?_
      closed_pend := ?_ }
    · intro pr hpr
      rcases List.mem_append.mp hpr with hpr | hpr
      · exact List.mem_append_left _ (inv.pend_assigned pr hpr)
      · rw [List.mem_singleton] at hpr
        rw [hpr]
        exact List.mem_append_right _ (List.mem_singleton_self _)
    · intro c hcm
      exact List.mem_append_left _ (inv.comps_assigned c hcm)
    · intro a ha
      rcases List.mem_append.mp ha with ha | ha
      · exact Nat.lt_succ_of_lt (inv.ids_lt a ha)
      · rw [List.mem_singleton] at ha
        rw [ha]
        exact Nat.lt_succ_self _
    · intro a ha
      rcases List.mem_append.mp ha with ha | ha
      · exact Nat.lt_succ_of_lt (inv.callers_lt a ha)
      · rw [List.mem_singleton] at ha
        rw [ha]
        exact Nat.lt_succ_self _
    · rw [List.map_append]
      refine List.nodup_append.mpr ⟨inv.callers_nodup, List.nodup_singleton _, ?_⟩
      intro x hx hx2
      rw [List.map_singleton, List.mem_singleton] at hx2
      obtain ⟨a, ha, hax⟩ := List.mem_map.mp hx
      exact hcallers a ha (hax.trans hx2)
    · rw [List.map_append]
      refine List.nodup_append.mpr ⟨inv.ids_nodup, List.nodup_singleton _, ?_⟩
      intro x hx hx2
      rw [List.map_singleton, List.mem_singleton] at hx2
      obtain ⟨a, ha, hax⟩ := List.mem_map.mp hx
      exact hids a ha (hax.trans hx2)
    · refine List.nodup_append.mpr ⟨inv.pend_nodup, List.nodup_singleton _, ?_⟩
      intro q hq hq2
      rw [List.mem_singleton] at hq2
      have hpair := inv.pend_assigned q hq
      rw [hq2] at hpair
      exact hids _ hpair rfl
    · intro a ha
      dsimp only at ha ⊢
      rcases List.mem_append.mp ha with ha | ha
      · have hne : (PendingRequest.mk st.conn.nextId st.conn.sendCount).caller ≠ a.1 :=
          fun h => hcallers a ha h.symm
        rw [List.countP_append, List.countP_singleton, if_neg (by simpa using hne)]
        have := inv.conservation a ha
        omega
      · rw [List.mem_singleton] at ha
        rw [ha]
        have hcz : st.comps.countP (fun c => c.caller == st.conn.sendCount) = 0 := by
          rw [List.countP_eq_zero]
          intro c hcm
          have := inv.callers_lt _ (inv.comps_assigned c hcm)
          simpa using Nat.ne_of_lt this
        have hpz : st.conn.pending.countP
            (fun pr => pr.caller == st.conn.sendCount) = 0 := by
          rw [List.countP_eq_zero]
          intro q hq
          have := inv.callers_lt _ (inv.pend_assigned q hq)
          simpa using Nat.ne_of_lt this
        rw [List.countP_append, List.countP_singleton]
        simp [hcz, hpz]
    · intro h
      exact absurd h hc

theorem connInv_recv (st : ConnState) (i : Nat) (ok : Bool) (inv : ConnInv st) :
    ConnInv (connStep st (.recvResponse i ok)) := by
  simp only [connStep]
  cases hfind : st.conn.pending.find? (fun pr => pr.corrId == i) with
  | none => exact inv
  | some pr =>
    have hmem : pr ∈ st.conn.pending := List.mem_of_find?_eq_some hfind
    have hid : pr.corrId = i := by
      have := List.find?_some hfind
      simpa using this
    have hpair : (pr.caller, pr.corrId) ∈ st.assigned := inv.pend_assigned pr hmem
    have hinj := List.inj_on_of_nodup_map inv.ids_nodup
    have huniq : ∀ q ∈ st.conn.pending, q.corrId = i → q = pr := by
      intro q hq hqi
      have hqpair := inv.pend_assigned q hq
      have heq : (q.caller, q.corrId) = (pr.caller, pr.corrId) :=
        hinj hqpair hpair (by simp [hqi, hid])
      cases q
      cases pr
      simp_all
    have hcons := inv.conservation _ hpair
    dsimp only at hcons
    have hppos : 0 < st.conn.pending.countP (fun q => q.caller == pr.caller) := by
      rw [List.countP_pos_iff]
      exact ⟨pr, hmem, by simp⟩
    have hc0 : st.comps.countP (fun c => c.caller == pr.caller) = 0 := by omega
    have hp1 : st.conn.pending.countP (fun q => q.caller == pr.caller) = 1 := by
      omega
    have huniqc : ∀ q ∈ st.conn.pending, q.caller = pr.caller → q = pr := by
      intro q hq hqc
      have hfl : (st.conn.pending.filter
          (fun q => q.caller == pr.caller)).length ≤ 1 := by
        rw [← List.countP_eq_length_filter]
        omega
      have hqf : q ∈ st.conn.pending.filter (fun q => q.caller == pr.caller) :=
        List.mem_filter.mpr ⟨hq, by simp [hqc]⟩
      have hpf : pr ∈ st.conn.pending.filter (fun q => q.caller == pr.caller) :=
        List.mem_filter.mpr ⟨hmem, by simp⟩
      exact length_le_one_eq hfl q hqf pr hpf
    refine {
      pend_assigned := ?_
      comps_assigned := ?_
      ids_lt := inv.ids_lt
      callers_lt := inv.callers_lt
      callers_nodup := inv.callers_nodup
      ids_nodup := inv.ids_nodup
      pend_nodup := inv.pend_nodup.filter _
      conservation := ?_
      closed_pend := ?_ }
    · intro q hq
      exact inv.pend_assigned q (List.mem_of_mem_filter hq)
    · intro c hcm
      dsimp only at hcm
      rcases List.mem_append.mp hcm with hcm | hcm
      · exact inv.comps_assigned c hcm
      · rw [List.mem_singleton] at hcm
        rw [hcm]
        dsimp only
        rw [← hid]
        exact hpair
    · intro a ha
      dsimp only at ha ⊢
      by_cases hac : a.1 = pr.caller
      · have hcz : st.comps.countP (fun c => c.caller == a.1) = 0 := by
          rw [hac]; exact hc0
        have hcnew : (st.comps
            ++ [Completion.mk pr.caller i
                  (if ok then .success else .protocolError)]).countP
              (fun c => c.caller == a.1) = 1 := by
          rw [List.countP_append, List.countP_singleton, hcz]
          simp [hac]
        have hpnew : (st.conn.pending.filter
            (fun q => q.corrId != i)).countP (fun q => q.caller == a.1) = 0 := by
          rw [List.countP_filter, List.countP_eq_zero]
          intro q hq hcond
          simp only [Bool.and_eq_true, beq_iff_eq, bne_iff_ne] at hcond
          have hq_pr : q = pr := huniqc q hq (hcond.1.trans hac)
          rw [hq_pr] at hcond
          exact hcond.2 hid
        rw [hcnew, hpnew]
      · have hne : (Completion.mk pr.caller i
            (if ok then CmdOutcome.success else CmdOutcome.protocolError)).caller
              ≠ a.1 := fun h => hac h.symm
        have hcnew : (st.comps
            ++ [Completion.mk pr.caller i
                  (if ok then .success else .protocolError)]).countP
              (fun c => c.caller == a.1)
            = st.comps.countP (fun c => c.caller == a.1) := by
          rw [List.countP_append, List.countP_singleton,
            if_neg (by simpa using hne), Nat.add_zero]
        have hpnew : (st.conn.pending.filter
            (fun q => q.corrId != i)).countP (fun q => q.caller == a.1)
            = st.conn.pending.countP (fun q => q.caller == a.1) := by
          rw [List.countP_filter]
          apply List.countP_congr
          intro q hq
          constructor
          · intro h
            exact ((Bool.and_eq_true _ _).mp h).1
          · intro h
            have hqc : q.caller = a.1 := by simpa using h
            have hqne : q ≠ pr := fun he => hac (by rw [← hqc, he])
            have hqi : q.corrId ≠ i := fun hqi => hqne (huniq q hq hqi)
            simp [hqc, hqi]
        rw [hcnew, hpnew]
        exact inv.conservation a ha
    · intro h
      dsimp only at h ⊢
      rw [inv.closed_pend h]
      rfl

theorem connInv_close (st : ConnState) (inv : ConnInv st) :
    ConnInv (connStep st .close) := by
  simp only [connStep]
  refine {
    pend_assigned := ?_
    comps_assigned := ?_
    ids_lt := inv.ids_lt
    callers_lt := inv.callers_lt
    callers_nodup := inv.callers_nodup
    ids_nodup := inv.ids_nodup
    pend_nodup := List.nodup_nil
    conservation := ?_
    closed_pend := fun _ => rfl }
  · intro q hq
    exact absurd hq (List.not_mem_nil q)
  · intro c hcm
    dsimp only at hcm
    rcases List.mem_append.mp hcm with hcm | hcm
    · exact inv.comps_assigned c hcm
    · obtain ⟨q, hq, hqc⟩ := List.mem_map.mp hcm
      rw [← hqc]
      exact inv.pend_assigned q hq
  · intro a ha
    dsimp only at ha ⊢
    rw [List.countP_append, List.countP_map, List.countP_nil, Nat.add_zero]
    have hmap : st.conn.pending.countP
        ((fun c : Completion => c.caller == a.1)
          ∘ (fun pr : PendingRequest =>
              Completion.mk pr.caller pr.corrId .connClosed))
        = st.conn.pending.countP (fun q => q.caller == a.1) := by
      apply List.countP_congr
      intro q hq
      simp [Function.comp]
    rw [hmap]
    exact inv.conservation a ha

theorem connInv_step (st : ConnState) (op : ConnOp) (inv : ConnInv st) :
    ConnInv (connStep st op) := by
  cases op with
  | send => exact connInv_send st inv
  | recvResponse i ok => exact connInv_recv st i ok inv
  | recvEvent => exact inv
  | close => exact connInv_close st inv

theorem connInit_inv : ConnInv connInit :=
  { pend_assigned := fun pr hpr => absurd hpr (List.not_mem_nil pr)
    comps_assigned := fun c hc => absurd hc (List.not_mem_nil c)
    ids_lt := fun a ha => absurd ha (List.not_mem_nil a)
    callers_lt := fun a ha => absurd ha (List.not_mem_nil a)
    callers_nodup := List.nodup_nil
    ids_nodup := List.nodup_nil
    pend_nodup := List.nodup_nil
    conservation := fun a ha => absurd ha (List.not_mem_nil a)
    closed_pend := fun _ => rfl }

theorem connInv_run (ops : List ConnOp) : ConnInv (connRun ops) := by
  have h : ∀ st, ConnInv st → ConnInv (ops.foldl connStep st) := by
    induction ops with
    | nil => exact fun _ inv => inv
    | cons op ops ih =>
      intro st inv
      rw [List.foldl_cons]
      exact ih _ (connInv_step st op inv)
  exact h connInit connInit_inv

/-- C1.  Correlation uniqueness: over every operation sequence,
correlation ids assigned to send calls are duplicate-free; at most one
PendingRequest exists per correlation id at a time; every completion a
call receives carries exactly the correlation id assigned to that call
and never another call's; every call is completed at most once at any
point, and exactly once (success, protocol error, or connection-closed)
once the connection closes. -/
theorem connection_correlation (ops : List ConnOp) :
    (((connRun ops).assigned.map Prod.snd).Nodup)
    ∧ (((connRun ops).conn.pending.map PendingRequest.corrId).Nodup)
    ∧ (∀ c ∈ (connRun ops).comps, (c.caller, c.corrId) ∈ (connRun ops).assigned)
    ∧ (∀ c ∈ (connRun ops).comps, ∀ a ∈ (connRun ops).assigned,
        c.caller = a.1 → c.corrId = a.2)
    ∧ (∀ k, (connRun ops).comps.countP (fun c => c.caller == k) ≤ 1)
    ∧ (∀ a ∈ (connRun (ops ++ [ConnOp.close])).assigned,
        (connRun (ops ++ [ConnOp.close])).comps.countP
          (fun c => c.caller == a.1) = 1) := by
  have inv := connInv_run ops
  refine ⟨inv.ids_nodup, ?_, inv.comps_assigned, ?_, ?_, ?_⟩
  · refine List.Nodup.map_on ?_ inv.pend_nodup
    intro x hx y hy hxy
    have hxp := inv.pend_assigned x hx
    have hyp := inv.pend_assigned y hy
    have hpq := List.inj_on_of_nodup_map inv.ids_nodup hxp hyp (by simpa using hxy)
    cases x
    cases y
    simp_all
  · intro c hcm a ha hca
    have hcp := inv.comps_assigned c hcm
    have hpq := List.inj_on_of_nodup_map inv.callers_nodup hcp ha (by simpa using hca)
    exact congrArg Prod.snd hpq
  · intro k
    by_cases hk : ∃ a ∈ (connRun ops).assigned, a.1 = k
    · obtain ⟨a, ha, hak⟩ := hk
      have hc := inv.conservation a ha
      rw [hak] at hc
      omega
    · have hz : (connRun ops).comps.countP (fun c => c.caller == k) = 0 := by
        rw [List.countP_eq_zero]
        intro c hcm hck
        apply hk
        refine ⟨(c.caller, c.corrId), inv.comps_assigned c hcm, ?_⟩
        simpa using hck
      omega
  · intro a ha
    have inv2 := connInv_run (ops ++ [ConnOp.close])
    have hstep : connRun (ops ++ [ConnOp.close])
        = connStep (connRun ops) .close := by
      rw [connRun, connRun, List.foldl_append]
      rfl
    have hclosed : (connRun (ops ++ [ConnOp.close])).conn.closed = true := by
      rw [hstep]
      rfl
    have hpend := inv2.closed_pend hclosed
    have hc := inv2.conservation a ha
    rw [hpend] at hc
    simpa using hc

/-- Witness for C1: after two sends and the response with correlation
id 0, the completed call is the one that was assigned id 0. -/
theorem connection_correlation_witness :
    ((0 : Nat), (0 : Nat))
      ∈ (connRun [ConnOp.send, ConnOp.send, ConnOp.recvResponse 0 true]).assigned :=
  (connection_correlation [ConnOp.send, ConnOp.send, ConnOp.recvResponse 0 true]).2.2.1
    ⟨0, 0, CmdOutcome.success⟩ (by decide)

end PlaywrightSpec
